import Mathlib

/-!
Verification of the segmented LOWESS detrending pipeline and its helper
routines (STAT-Tool repository).

The Lean definitions below are a shallow embedding of the Python source:

  * `lowess_partial_block` embeds the `detrending == 'lowess_partial'` block of
    `ffi_lowess_detrend` (ffi_lowess_detrending_as_function_CDIPS.py,
    lines 427-490).  Times and fluxes are rationals; the external
    statsmodels smoother `sm.nonparametric.lowess` is an abstract
    parameter (a `Smoother`), since it lives outside this repository.
    The accumulator additionally records every bandwidth fraction passed
    to the smoother and every processed slice boundary, so that claims
    about those arguments can be stated.
  * `ffi_lowess_detrend_except_flow` embeds the exception-handling
    skeleton of `ffi_lowess_detrend` (the inner bare `except` around the
    light-curve download at lines 115-116, the outer handlers at lines
    707-710, and the final `return` at line 711), together with Python's
    local-variable binding rules for `target_ID` and the returned names.
  * `ffi_lowess_detrend_run` embeds the input/output dependency structure
    of one call: the returned tuple `(t_cut, BLS_flux, phase, epoch,
    period)` as a function of the inputs and the (fixed) library
    functions, threaded against the persistent on-disk state the call
    appends to (the `Period_info_table.csv` rows, lines 658-662).
  * `clean_tess_lc` embeds remove_tess_systematics.py, lines 142-271.
  * `bin` embeds the `bin` function (lines 734-765 of the CDIPS script,
    identical to remove_tess_systematics.py lines 35-49), including
    numpy's `array_split` semantics and its error behaviour.
-/

/-- Abstract stand-in for `sm.nonparametric.lowess` followed by the
`[:,1]` projection: it receives the flux section, the time section and
the bandwidth fraction, and returns the smoothed flux values.  The
statsmodels implementation is outside this repository, so it is a
parameter of the embedding. -/
def Smoother : Type := List ℚ → List ℚ → ℚ → List ℚ

/-- Python slice `xs[lo:hi]` (for `lo ≤ hi`; clipped at the end like
Python). -/
def pySlice (xs : List ℚ) (lo hi : ℕ) : List ℚ :=
  (xs.drop lo).take (hi - lo)

/-- Entry `i` of `np.diff(t_cut)`, i.e. `t_cut[i+1] - t_cut[i]`. -/
def timeDiff (t : List ℚ) (i : ℕ) : ℚ :=
  t.getD (i + 1) 0 - t.getD i 0

/-- State of the `lowess_partial_block` loop: the running `low_bound` index and
the three accumulated arrays of the source, plus a record of each
bandwidth fraction passed to the smoother (`fracs`) and of each processed
slice `(low_bound, high_bound)` (`segments`). -/
structure DetrendAcc where
  low_bound : ℕ
  residual_flux_lowess : List ℚ
  time_from_lowess_detrend : List ℚ
  full_lowess_flux : List ℚ
  fracs : List ℚ
  segments : List (ℕ × ℕ)
deriving Repr, DecidableEq

/-- Initial accumulator: `low_bound = 0` and the three arrays start as
`np.array([])`. -/
def initAcc : DetrendAcc :=
  ⟨0, [], [], [], [], []⟩

/-- Processing of one section (source lines 448-464, and again 469-490
for the final section): slice out `t_section` and `flux_section`, call
the smoother with `frac = n_bins/len(t_section)`, divide flux by trend,
and concatenate everything onto the accumulators, moving `low_bound` up
to `high_bound`. -/
def processSection (smooth : Smoother) (nBins : ℕ) (tCut fluxCut : List ℚ)
    (acc : DetrendAcc) (high_bound : ℕ) : DetrendAcc :=
  let t_section := pySlice tCut acc.low_bound high_bound
  let flux_section := pySlice fluxCut acc.low_bound high_bound
  let frac : ℚ := (nBins : ℚ) / (t_section.length : ℚ)
  let lowess_flux_section := smooth flux_section t_section frac
  let residuals_section := List.zipWith (fun a b => a / b) flux_section lowess_flux_section
  { low_bound := high_bound,
    residual_flux_lowess := acc.residual_flux_lowess ++ residuals_section,
    time_from_lowess_detrend := acc.time_from_lowess_detrend ++ t_section,
    full_lowess_flux := acc.full_lowess_flux ++ lowess_flux_section,
    fracs := acc.fracs ++ [frac],
    segments := acc.segments ++ [(acc.low_bound, high_bound)] }

/-- One iteration of the `for i in range(len(t_cut)-1)` loop (source
lines 444-466): if the gap `time_diff[i]` exceeds 0.1 the section up to
`i+1` is considered; it is processed only when it has at least `n_bins`
points, otherwise nothing changes (`low_bound` is NOT advanced — the
source merely prints `Skipped one gap`). -/
def loopStep (smooth : Smoother) (nBins : ℕ) (tCut fluxCut : List ℚ)
    (acc : DetrendAcc) (i : ℕ) : DetrendAcc :=
  if timeDiff tCut i > (0.1 : ℚ) then
    let high_bound := i + 1
    let t_section := pySlice tCut acc.low_bound high_bound
    if nBins ≤ t_section.length then
      processSection smooth nBins tCut fluxCut acc high_bound
    else
      acc
  else
    acc

/-- The accumulator after the gap loop (source lines 444-466). -/
def loopAcc (smooth : Smoother) (nBins : ℕ) (tCut fluxCut : List ℚ) : DetrendAcc :=
  (List.range (tCut.length - 1)).foldl (loopStep smooth nBins tCut fluxCut) initAcc

/-- The whole `lowess_partial_block` detrending block (source lines 427-490):
the gap loop followed by the unconditional processing of the final
section up to `len(t_cut)`. -/
def lowess_partial_block (smooth : Smoother) (nBins : ℕ) (tCut fluxCut : List ℚ) : DetrendAcc :=
  processSection smooth nBins tCut fluxCut (loopAcc smooth nBins tCut fluxCut) tCut.length

/-- A concrete smoother used to instantiate witnesses and
counterexamples: it returns the flux section unchanged (a flat trend
through the data), which is length-preserving like the statsmodels
smoother. -/
def idSmoother : Smoother := fun flux _t _frac => flux

/-!  Generic invariant principle for a left fold over `List.range n`. -/

/-- Invariant principle for `foldl` over `List.range n`: if `P` holds of
the initial accumulator at index 0 and each step preserves it, it holds
of the final accumulator at index `n`. -/
theorem foldl_range_inv {α : Type} (f : α → ℕ → α) (P : α → ℕ → Prop) :
    ∀ (n : ℕ) (a : α), P a 0 →
      (∀ acc i, i < n → P acc i → P (f acc i) (i + 1)) →
      P ((List.range n).foldl f a) n := by
  intro n
  induction n with
  | zero => intro a h0 _; simpa using h0
  | succ m ih =>
    intro a h0 hstep
    rw [List.range_succ, List.foldl_append]
    exact hstep _ m (Nat.lt_succ_self m)
      (ih a h0 (fun acc i hi hp => hstep acc i (Nat.lt_succ_of_lt hi) hp))

/-!  Invariants of the `lowess_partial_block` loop. -/

/-- Basic loop invariant, independent of any assumption on the smoother:
after `i` iterations `low_bound` is at most `i`, and the accumulated
time array is exactly the prefix of `t_cut` up to `low_bound`. -/
theorem loopAcc_basic (smooth : Smoother) (nBins : ℕ) (tCut fluxCut : List ℚ) :
    (loopAcc smooth nBins tCut fluxCut).low_bound ≤ tCut.length - 1 ∧
    (loopAcc smooth nBins tCut fluxCut).time_from_lowess_detrend =
      tCut.take (loopAcc smooth nBins tCut fluxCut).low_bound := by
  have h := foldl_range_inv (loopStep smooth nBins tCut fluxCut)
    (fun acc i => acc.low_bound ≤ i ∧
      acc.time_from_lowess_detrend = tCut.take acc.low_bound)
    (tCut.length - 1) initAcc (by simp [initAcc]) ?_
  · exact h
  · intro acc i _hi hp
    unfold loopStep
    by_cases hgap : timeDiff tCut i > (0.1 : ℚ)
    · rw [if_pos hgap]
      by_cases hlen : nBins ≤ (pySlice tCut acc.low_bound (i+1)).length
      · rw [if_pos hlen]
        refine ⟨le_refl _, ?_⟩
        have hlow : acc.low_bound + (i + 1 - acc.low_bound) = i + 1 :=
          Nat.add_sub_cancel' (Nat.le_succ_of_le hp.1)
        simp only [processSection, pySlice, hp.2]
        rw [← List.take_add]
        rw [hlow]
      · rw [if_neg hlen]
        exact ⟨Nat.le_succ_of_le hp.1, hp.2⟩
    · rw [if_neg hgap]
      exact ⟨Nat.le_succ_of_le hp.1, hp.2⟩

/-- After the final unconditional section, the concatenated output time
array is the whole input `t_cut`: a section shorter than `n_bins` never
drops its points, they are merged into the next processed section or into
the final one. -/
theorem lp_timeOut_eq (smooth : Smoother) (nBins : ℕ) (tCut fluxCut : List ℚ) :
    (lowess_partial_block smooth nBins tCut fluxCut).time_from_lowess_detrend = tCut := by
  obtain ⟨_hle, heq⟩ := loopAcc_basic smooth nBins tCut fluxCut
  unfold lowess_partial_block
  simp only [processSection, pySlice, heq]
  have hdrop : (tCut.drop (loopAcc smooth nBins tCut fluxCut).low_bound).take
      (tCut.length - (loopAcc smooth nBins tCut fluxCut).low_bound) =
      tCut.drop (loopAcc smooth nBins tCut fluxCut).low_bound := by
    rw [← List.length_drop]
    exact List.take_length _
  rw [hdrop, List.take_append_drop]

/-- Loop invariant on the flux side, assuming the input arrays have equal
length and the smoother is length-preserving (as the statsmodels lowess
is): the accumulated trend has length `low_bound` and the accumulated
residuals are elementwise flux-over-trend on the prefix processed so
far. -/
theorem loopAcc_flux (smooth : Smoother) (nBins : ℕ) (tCut fluxCut : List ℚ)
    (hlen : fluxCut.length = tCut.length)
    (hsm : ∀ fl t fr, (smooth fl t fr).length = fl.length) :
    (loopAcc smooth nBins tCut fluxCut).full_lowess_flux.length =
      (loopAcc smooth nBins tCut fluxCut).low_bound ∧
    (loopAcc smooth nBins tCut fluxCut).residual_flux_lowess =
      List.zipWith (fun a b => a / b)
        (fluxCut.take (loopAcc smooth nBins tCut fluxCut).low_bound)
        (loopAcc smooth nBins tCut fluxCut).full_lowess_flux := by
  have h := foldl_range_inv (loopStep smooth nBins tCut fluxCut)
    (fun acc i => acc.low_bound ≤ i ∧
      acc.full_lowess_flux.length = acc.low_bound ∧
      acc.residual_flux_lowess =
        List.zipWith (fun a b => a / b) (fluxCut.take acc.low_bound) acc.full_lowess_flux)
    (tCut.length - 1) initAcc (by simp [initAcc]) ?_
  · exact ⟨h.2.1, h.2.2⟩
  · intro acc i hi hp
    obtain ⟨hlow, htrend, hres⟩ := hp
    unfold loopStep
    by_cases hgap : timeDiff tCut i > (0.1 : ℚ)
    · rw [if_pos hgap]
      by_cases hsec : nBins ≤ (pySlice tCut acc.low_bound (i+1)).length
      · rw [if_pos hsec]
        have hi1 : i + 1 ≤ fluxCut.length := by
          rw [hlen]; omega
        have hlow1 : acc.low_bound ≤ i + 1 := Nat.le_succ_of_le hlow
        have hfsec : (pySlice fluxCut acc.low_bound (i+1)).length =
            i + 1 - acc.low_bound := by
          simp only [pySlice, List.length_take, List.length_drop]
          omega
        have htake : (fluxCut.take acc.low_bound).length = acc.low_bound := by
          simp only [List.length_take]
          omega
        refine ⟨le_refl _, ?_, ?_⟩
        · simp only [processSection, List.length_append, htrend, hsm, hfsec]
          omega
        · simp only [processSection, hres]
          have hsplit : fluxCut.take (i + 1) =
              fluxCut.take acc.low_bound ++ pySlice fluxCut acc.low_bound (i+1) := by
            simp only [pySlice]
            rw [← List.take_add, Nat.add_sub_cancel' hlow1]
          rw [hsplit, List.zipWith_append _ _ _ _ _ (by rw [htake, htrend])]
      · rw [if_neg hsec]
        exact ⟨Nat.le_succ_of_le hlow, htrend, hres⟩
    · rw [if_neg hgap]
      exact ⟨Nat.le_succ_of_le hlow, htrend, hres⟩

/-- Whole-pipeline fact: with equal-length inputs and a
length-preserving smoother, the final trend array has the length of the
input, and the residual array is elementwise flux divided by trend over
the whole input. -/
theorem lp_residual_eq (smooth : Smoother) (nBins : ℕ) (tCut fluxCut : List ℚ)
    (hlen : fluxCut.length = tCut.length)
    (hsm : ∀ fl t fr, (smooth fl t fr).length = fl.length) :
    (lowess_partial_block smooth nBins tCut fluxCut).full_lowess_flux.length = fluxCut.length ∧
    (lowess_partial_block smooth nBins tCut fluxCut).residual_flux_lowess =
      List.zipWith (fun a b => a / b) fluxCut
        (lowess_partial_block smooth nBins tCut fluxCut).full_lowess_flux := by
  obtain ⟨hlow, _htime⟩ := loopAcc_basic smooth nBins tCut fluxCut
  obtain ⟨htrend, hres⟩ := loopAcc_flux smooth nBins tCut fluxCut hlen hsm
  have hlowlen : (loopAcc smooth nBins tCut fluxCut).low_bound ≤ fluxCut.length := by
    rw [hlen]; omega
  have hfsec : (pySlice fluxCut (loopAcc smooth nBins tCut fluxCut).low_bound
      tCut.length).length = fluxCut.length - (loopAcc smooth nBins tCut fluxCut).low_bound := by
    simp only [pySlice, List.length_take, List.length_drop]
    omega
  have htake : (fluxCut.take (loopAcc smooth nBins tCut fluxCut).low_bound).length =
      (loopAcc smooth nBins tCut fluxCut).low_bound := by
    simp only [List.length_take]; omega
  constructor
  · simp only [lowess_partial_block, processSection, List.length_append, htrend, hsm, hfsec]
    omega
  · simp only [lowess_partial_block, processSection, hres]
    have hsplit : fluxCut =
        fluxCut.take (loopAcc smooth nBins tCut fluxCut).low_bound ++
          pySlice fluxCut (loopAcc smooth nBins tCut fluxCut).low_bound tCut.length := by
      simp only [pySlice, ← hlen]
      rw [← List.length_drop]
      rw [List.take_length, List.take_append_drop]
    rw [← List.zipWith_append _ _ _ _ _ (by rw [htake, htrend]), ← hsplit]

/-!  Claims about the `lowess_partial_block` block. -/

/-- C1 (counterexample to the claim as stated): with `n_bins = 2` and
`t_cut = [0, 1, 1.01]`, the gap at index 0 delimits a first segment of
one point, which is below the minimum point count, yet its timestamp 0
still appears in `time_from_lowess_detrend` (the loop does not advance
`low_bound` on a skip, so the point is swallowed by the final section). -/
theorem short_segment_time_in_output_cex :
    timeDiff [0, 1, 101/100] 0 > (0.1 : ℚ) ∧
    (pySlice [0, 1, 101/100] 0 1).length < 2 ∧
    (0 : ℚ) ∈ (lowess_partial_block idSmoother 2 [0, 1, 101/100]
      [1, 1, 1]).time_from_lowess_detrend := by
  with_unfolding_all decide

/-- C1 (amended): a segment shorter than the minimum point count is not
split off at its gap; its points are merged into the following section
(ultimately the unconditional final section), so the concatenated output
time array is exactly the whole input: nothing is ever dropped. -/
theorem skipped_segment_points_merged (smooth : Smoother) (nBins : ℕ)
    (tCut fluxCut : List ℚ) :
    (lowess_partial_block smooth nBins tCut fluxCut).time_from_lowess_detrend = tCut :=
  lp_timeOut_eq smooth nBins tCut fluxCut

/-- C2 (code bug): the final section (from the last processed gap to the
end of the data) is smoothed unconditionally, so when it has fewer than
`n_bins` points the bandwidth fraction passed to the smoother exceeds 1.
Concretely, `t_cut = [0, 0.01]` with the default `n_bins = 30` has no
gap, so the whole two-point input is the final section and the fraction
passed is `30/2 = 15`, outside `(0, 1]`. -/
theorem final_section_frac_exceeds_one :
    (lowess_partial_block idSmoother 30 [0, 1/100] [1, 1]).fracs = [15] ∧
    ¬ ((15 : ℚ) ≤ 1) := by
  with_unfolding_all decide

/-- C3: the residual array produced by the `lowess_partial_block` block is no
longer than the input flux array, and the residual and output time
arrays always have the same length (for equal-length inputs and a
length-preserving smoother; in fact both equal the input length). -/
theorem residual_length_le_input (smooth : Smoother) (nBins : ℕ)
    (tCut fluxCut : List ℚ)
    (hlen : fluxCut.length = tCut.length)
    (hsm : ∀ fl t fr, (smooth fl t fr).length = fl.length) :
    (lowess_partial_block smooth nBins tCut fluxCut).residual_flux_lowess.length ≤
      fluxCut.length ∧
    (lowess_partial_block smooth nBins tCut fluxCut).residual_flux_lowess.length =
      (lowess_partial_block smooth nBins tCut fluxCut).time_from_lowess_detrend.length := by
  obtain ⟨htrend, hres⟩ := lp_residual_eq smooth nBins tCut fluxCut hlen hsm
  have htime := lp_timeOut_eq smooth nBins tCut fluxCut
  have hlenres : (lowess_partial_block smooth nBins tCut fluxCut).residual_flux_lowess.length =
      fluxCut.length := by
    rw [hres, List.length_zipWith, htrend, min_self]
  exact ⟨le_of_eq hlenres, by rw [hlenres, htime, hlen]⟩

/-- C3 witness: the theorem applied at a concrete input. -/
theorem residual_length_le_input_witness :
    (([(1:ℚ), 2, 3] : List ℚ).length = ([(0:ℚ), 1, 101/100] : List ℚ).length) ∧
    ((lowess_partial_block idSmoother 2 [0, 1, 101/100] [1, 2, 3]).residual_flux_lowess.length ≤
        ([(1:ℚ), 2, 3] : List ℚ).length ∧
      (lowess_partial_block idSmoother 2 [0, 1, 101/100] [1, 2, 3]).residual_flux_lowess.length =
        (lowess_partial_block idSmoother 2 [0, 1, 101/100] [1, 2, 3]).time_from_lowess_detrend.length) :=
  ⟨rfl, residual_length_le_input idSmoother 2 [0, 1, 101/100] [1, 2, 3] rfl
    (fun _fl _t _fr => rfl)⟩

/-- C5: on the whole concatenated output, the residual at each position
is the observed flux at that position divided by the smoothed trend value
at that position, and both the trend array and the residual array are
fields of the result. -/
theorem residuals_are_flux_div_trend (smooth : Smoother) (nBins : ℕ)
    (tCut fluxCut : List ℚ)
    (hlen : fluxCut.length = tCut.length)
    (hsm : ∀ fl t fr, (smooth fl t fr).length = fl.length) :
    (lowess_partial_block smooth nBins tCut fluxCut).residual_flux_lowess =
      List.zipWith (fun a b => a / b) fluxCut
        (lowess_partial_block smooth nBins tCut fluxCut).full_lowess_flux :=
  (lp_residual_eq smooth nBins tCut fluxCut hlen hsm).2

/-- C5 witness: the theorem applied at a concrete input. -/
theorem residuals_are_flux_div_trend_witness :
    (([(2:ℚ), 4, 6] : List ℚ).length = ([(0:ℚ), 1, 101/100] : List ℚ).length) ∧
    (lowess_partial_block idSmoother 2 [0, 1, 101/100] [2, 4, 6]).residual_flux_lowess =
      List.zipWith (fun a b => a / b) [2, 4, 6]
        (lowess_partial_block idSmoother 2 [0, 1, 101/100] [2, 4, 6]).full_lowess_flux :=
  ⟨rfl, residuals_are_flux_div_trend idSmoother 2 [0, 1, 101/100] [2, 4, 6] rfl
    (fun _fl _t _fr => rfl)⟩

/-- C6: the output time array is a subsequence of the input (in fact all
of it, in order), non-decreasing inputs give a non-decreasing output, and
the i-th residual is paired with the i-th timestamp: the output time
array equals the input and the residual array is elementwise flux over
trend at the same positions. -/
theorem output_order_and_pairing (smooth : Smoother) (nBins : ℕ)
    (tCut fluxCut : List ℚ)
    (hlen : fluxCut.length = tCut.length)
    (hsm : ∀ fl t fr, (smooth fl t fr).length = fl.length) :
    (lowess_partial_block smooth nBins tCut fluxCut).time_from_lowess_detrend.Sublist tCut ∧
    (tCut.Sorted (· ≤ ·) →
      (lowess_partial_block smooth nBins tCut fluxCut).time_from_lowess_detrend.Sorted (· ≤ ·)) ∧
    (lowess_partial_block smooth nBins tCut fluxCut).time_from_lowess_detrend = tCut ∧
    (lowess_partial_block smooth nBins tCut fluxCut).residual_flux_lowess =
      List.zipWith (fun a b => a / b) fluxCut
        (lowess_partial_block smooth nBins tCut fluxCut).full_lowess_flux := by
  have htime := lp_timeOut_eq smooth nBins tCut fluxCut
  refine ⟨?_, ?_, htime, (lp_residual_eq smooth nBins tCut fluxCut hlen hsm).2⟩
  · rw [htime]
  · intro hsorted
    rw [htime]
    exact hsorted

/-- C6 witness: the theorem applied at a concrete input. -/
theorem output_order_and_pairing_witness :
    (([(2:ℚ), 4, 6] : List ℚ).length = ([(0:ℚ), 1, 2] : List ℚ).length) ∧
    ((lowess_partial_block idSmoother 2 [0, 1, 2] [2, 4, 6]).time_from_lowess_detrend.Sublist
        [0, 1, 2] ∧
      (([(0:ℚ), 1, 2] : List ℚ).Sorted (· ≤ ·) →
        (lowess_partial_block idSmoother 2 [0, 1, 2] [2, 4, 6]).time_from_lowess_detrend.Sorted (· ≤ ·)) ∧
      (lowess_partial_block idSmoother 2 [0, 1, 2] [2, 4, 6]).time_from_lowess_detrend = [0, 1, 2] ∧
      (lowess_partial_block idSmoother 2 [0, 1, 2] [2, 4, 6]).residual_flux_lowess =
        List.zipWith (fun a b => a / b) [2, 4, 6]
          (lowess_partial_block idSmoother 2 [0, 1, 2] [2, 4, 6]).full_lowess_flux) :=
  ⟨rfl, output_order_and_pairing idSmoother 2 [0, 1, 2] [2, 4, 6] rfl
    (fun _fl _t _fr => rfl)⟩

/-- C4 (counterexample to the claim as stated): `t_cut = [0, 1, 1.01,
1.02]` is strictly increasing with its only over-threshold gap at index
0, but with `n_bins = 2` the one-point first segment is below the
minimum count, so the gap is skipped and the code processes a single
section covering everything — not two segments matching the gap. -/
theorem single_gap_short_first_segment_cex :
    timeDiff [0, 1, 101/100, 102/100] 0 > (0.1 : ℚ) ∧
    (¬ timeDiff [0, 1, 101/100, 102/100] 1 > (0.1 : ℚ)) ∧
    (¬ timeDiff [0, 1, 101/100, 102/100] 2 > (0.1 : ℚ)) ∧
    ([0, 1, 101/100, 102/100] : List ℚ).Sorted (· < ·) ∧
    (lowess_partial_block idSmoother 2 [0, 1, 101/100, 102/100] [1, 1, 1, 1]).segments =
      [(0, 4)] ∧
    ¬ ((lowess_partial_block idSmoother 2 [0, 1, 101/100, 102/100]
        [1, 1, 1, 1]).segments.length = 2) := by
  with_unfolding_all decide

/-- C4 (amended): if the gap threshold is exceeded at exactly one index
`i` and the first segment reaches the minimum point count (`n_bins ≤
i+1`), the block processes exactly two sections matching the gap
location: indices `0..i` and `i+1..end`. -/
theorem single_gap_two_segments (smooth : Smoother) (nBins : ℕ)
    (tCut fluxCut : List ℚ) (i : ℕ)
    (hi : i < tCut.length - 1)
    (hgap : timeDiff tCut i > (0.1 : ℚ))
    (honly : ∀ j, j < tCut.length - 1 → j ≠ i → ¬ timeDiff tCut j > (0.1 : ℚ))
    (hn : nBins ≤ i + 1) :
    (lowess_partial_block smooth nBins tCut fluxCut).segments =
      [(0, i + 1), (i + 1, tCut.length)] := by
  have hloop : (loopAcc smooth nBins tCut fluxCut) =
      processSection smooth nBins tCut fluxCut initAcc (i + 1) := by
    have h := foldl_range_inv (loopStep smooth nBins tCut fluxCut)
      (fun acc j => (j ≤ i → acc = initAcc) ∧
        (i < j → acc = processSection smooth nBins tCut fluxCut initAcc (i + 1)))
      (tCut.length - 1) initAcc ⟨fun _ => rfl, fun hlt => absurd hlt (Nat.not_lt_zero i)⟩ ?_
    · exact h.2 hi
    · intro acc j hj hp
      rcases Nat.lt_trichotomy j i with hji | hji | hji
      · have hacc : acc = initAcc := hp.1 (Nat.le_of_lt hji)
        have hng := honly j hj (Nat.ne_of_lt hji)
        constructor
        · intro _
          unfold loopStep
          rw [if_neg hng, hacc]
        · intro hlt
          omega
      · subst hji
        have hacc : acc = initAcc := hp.1 (le_refl j)
        constructor
        · intro hle
          omega
        · intro _
          unfold loopStep
          rw [if_pos hgap, hacc]
          have hsec : (pySlice tCut initAcc.low_bound (j + 1)).length = j + 1 := by
            simp only [initAcc, pySlice, List.length_take, List.length_drop]
            omega
          rw [if_pos (by rw [hsec]; exact hn)]
      · have hacc : acc = processSection smooth nBins tCut fluxCut initAcc (i + 1) :=
          hp.2 hji
        have hng := honly j hj (by omega)
        constructor
        · intro hle
          omega
        · intro _
          unfold loopStep
          rw [if_neg hng, hacc]
  unfold lowess_partial_block
  rw [hloop]
  simp [processSection, initAcc]

/-- C4 witness: the amended theorem applied at a concrete input with one
gap at index 1 and a first segment of exactly `n_bins = 2` points. -/
theorem single_gap_two_segments_witness :
    ((1 : ℕ) < ([0, 1/20, 1, 21/20] : List ℚ).length - 1 ∧
      timeDiff [0, 1/20, 1, 21/20] 1 > (0.1 : ℚ) ∧
      (∀ j, j < ([0, 1/20, 1, 21/20] : List ℚ).length - 1 → j ≠ 1 →
        ¬ timeDiff [0, 1/20, 1, 21/20] j > (0.1 : ℚ)) ∧
      2 ≤ 1 + 1) ∧
    (lowess_partial_block idSmoother 2 [0, 1/20, 1, 21/20] [1, 1, 1, 1]).segments =
      [(0, 2), (2, 4)] :=
  ⟨⟨by with_unfolding_all decide, by with_unfolding_all decide,
      by with_unfolding_all decide, by with_unfolding_all decide⟩,
    by
      have h := single_gap_two_segments idSmoother 2 [0, 1/20, 1, 21/20] [1, 1, 1, 1] 1
        (by with_unfolding_all decide) (by with_unfolding_all decide)
        (by with_unfolding_all decide) (by with_unfolding_all decide)
      simpa using h⟩

/-!  Exception-handling skeleton of `ffi_lowess_detrend` (claim C7).

The live configuration is the single-sector CDIPS path: inside the outer
try (line 54), an inner try (line 81) performs the download
`lc_30min, target_ID, sector = get_lc_from_fits(...)` (line 108); its
bare handler (lines 115-116) prints a message formatted with
`target_ID`.  Because `target_ID` is assigned inside the function body,
Python treats it as a local variable, so a reference before that
assignment raises `UnboundLocalError` (a `NameError`).  The outer
handlers (`except RuntimeError` at 707 and the bare `except` at 709)
likewise print messages formatted with `target_ID`, and the final
`return t_cut, BLS_flux, phase, epoch, period` (line 711) sits after the
handlers, so it executes even on a caught error and itself raises
`UnboundLocalError` when those locals were never bound. -/

/-- Python exception classes relevant to the handler skeleton. -/
inductive PyErr where
  | runtimeError : PyErr
  | nameError : PyErr
  | otherError : PyErr
deriving DecidableEq, Repr

/-- Evaluation of `print('...'.format(target_ID))`: raises `NameError`
(`UnboundLocalError`) when the local `target_ID` is not yet bound. -/
def printFormatTarget (targetBound : Bool) : Except PyErr Unit :=
  if targetBound then Except.ok () else Except.error PyErr.nameError

/-- Failure scenario for one target: whether the download raises, and
whether the rest of the pipeline raises (with which error) and, if so,
whether all five returned locals had already been bound at that point. -/
structure TargetScenario where
  downloadRaises : Bool
  laterErr : Option PyErr
  outputsBoundAtErr : Bool
deriving DecidableEq, Repr

/-- Exception flow of one `ffi_lowess_detrend` call on the CDIPS path:
inner try/except around the download, the main pipeline, the outer
`except RuntimeError` / bare `except` handlers (both of which log via
`target_ID`), and the final `return` referencing `t_cut`, `BLS_flux`,
`phase`, `epoch`, `period`.  Returns `ok` when the call completes
normally and `error e` when exception `e` propagates to the caller. -/
def ffi_lowess_detrend_except_flow (sc : TargetScenario) : Except PyErr Unit :=
  let targetBound := !sc.downloadRaises
  let innerResult : Except PyErr Unit :=
    match (if sc.downloadRaises then Except.error PyErr.runtimeError else Except.ok ()) with
    | Except.ok _ => Except.ok ()
    | Except.error _e => printFormatTarget targetBound
  let bodyResult : Except PyErr Unit :=
    match innerResult with
    | Except.error e => Except.error e
    | Except.ok _ =>
      match sc.laterErr with
      | none => Except.ok ()
      | some e => Except.error e
  let outputsBound : Bool :=
    match innerResult, sc.laterErr with
    | Except.ok _, none => true
    | Except.ok _, some _ => sc.outputsBoundAtErr
    | Except.error _, _ => false
  match bodyResult with
  | Except.ok _ =>
    if outputsBound then Except.ok () else Except.error PyErr.nameError
  | Except.error _e =>
    match printFormatTarget targetBound with
    | Except.ok _ =>
      if outputsBound then Except.ok () else Except.error PyErr.nameError
    | Except.error e2 => Except.error e2

/-- C7 (code bug): when the source light curve is unavailable (the
download raises), the inner bare handler's own log line references the
unbound local `target_ID` and raises `UnboundLocalError`; the outer
catch-all then does the same, so the exception propagates out of
`ffi_lowess_detrend` instead of the call completing normally.  The same
happens when a later pipeline error is caught before the five returned
locals are bound: the `return` statement itself raises. -/
theorem unavailable_lc_raises :
    ffi_lowess_detrend_except_flow ⟨true, none, false⟩ =
      Except.error PyErr.nameError ∧
    ffi_lowess_detrend_except_flow ⟨false, some PyErr.otherError, false⟩ =
      Except.error PyErr.nameError ∧
    ffi_lowess_detrend_except_flow ⟨false, none, true⟩ = Except.ok () :=
  ⟨rfl, rfl, rfl⟩

/-!  Determinism of one detrending run (claim C8).

The only persistent state a call touches is appended, never read: the
row written to `Period_info_table.csv` (lines 658-662) and the saved
figures/CSV light curve.  The returned tuple `(t_cut, BLS_flux, phase,
epoch, period)` (line 711) is computed from the inputs and the library
functions alone: `BLS_flux = residual_flux_lowess` (line 515), the BLS
peak search (lines 522-536) is an external library call on
`(t_cut, BLS_flux)`, `epoch = t0.value` and `period = period.value`
(lines 636-638), and `phase = np.mod(t_cut-epoch-period/2,period)/period`
(line 642). -/

/-- Result of the external `BoxLeastSquares` peak search (period and
transit time of the maximal peak), abstract like the smoother. -/
structure BLSFit where
  period : ℚ
  t0 : ℚ

/-- Value of `np.mod(a, p)` on rationals (`p ≠ 0`): `a - p*floor(a/p)`. -/
def ratMod (a p : ℚ) : ℚ := a - p * (⌊a / p⌋ : ℚ)

/-- The tuple returned by `ffi_lowess_detrend` (line 711). -/
structure FfiOutputs where
  t_cut : List ℚ
  BLS_flux : List ℚ
  phase : List ℚ
  epoch : ℚ
  period : ℚ

/-- One call of `ffi_lowess_detrend` for fixed library behaviour
(`smooth` for the lowess smoother, `bls` for the box-least-squares peak
search): it returns the output tuple together with the updated
persistent CSV state, to which it appends one row.  The prior CSV
contents `csvEnv` — the only state carried between runs — are never
read, only extended. -/
def ffi_lowess_detrend_run (smooth : Smoother)
    (bls : List ℚ → List ℚ → BLSFit) (csvEnv : List (List String))
    (tCut fluxCut : List ℚ) (nBins : ℕ) :
    FfiOutputs × List (List String) :=
  let d := lowess_partial_block smooth nBins tCut fluxCut
  let blsFlux := d.residual_flux_lowess
  let fit := bls tCut blsFlux
  let epoch := fit.t0
  let period := fit.period
  let phase := tCut.map (fun t => ratMod (t - epoch - period / 2) period / period)
  let data_row := ["target_ID", "sector", "period", "epoch"]
  (⟨tCut, blsFlux, phase, epoch, period⟩, csvEnv ++ [data_row])

/-- C8: the returned tuple depends only on the inputs, the parameters
and the (fixed) library functions, not on the persistent state carried
over from earlier runs: two calls on the same inputs under different
prior CSV states return identical outputs. -/
theorem ffi_lowess_detrend_run_deterministic (smooth : Smoother)
    (bls : List ℚ → List ℚ → BLSFit) (env1 env2 : List (List String))
    (tCut fluxCut : List ℚ) (nBins : ℕ) :
    (ffi_lowess_detrend_run smooth bls env1 tCut fluxCut nBins).1 =
      (ffi_lowess_detrend_run smooth bls env2 tCut fluxCut nBins).1 := rfl

/-!  Embedding of `clean_tess_lc` (remove_tess_systematics.py, lines
142-271, claim C9).

The per-sector bad-time epochs are loaded from pickle files
(`s1_bad_times.pkl` … `s19_bad_times.pkl`, lines 152-189), i.e. external
data, so they are a parameter `badTimes : ℕ → List ℚ` of the embedding.
For a sector outside 1..19 the source never assigns `mom_dumps`, so the
loop at line 256 raises `NameError`; the embedding returns `none` there. -/

/-- Per-sector extra removal windows on the raw time values (the
`for i in range(len(time))` blocks for sectors 3, 4, 15 and 18 at lines
202-208, 211-213, 238-240 and 247-251). -/
def sectorRangeRemoval (sector : ℕ) (t : ℚ) : Bool :=
  if sector = 3 then
    decide (t < 1385.8966) || decide (t > 1406.2925) ||
      (decide (t > 1395.4800) && decide (t < 1396.6050))
  else if sector = 4 then
    decide (t > 1418.53691) && decide (t < 1421.21168)
  else if sector = 15 then
    decide (t > 1737.3)
  else if sector = 18 then
    decide (t < 1791.5) || decide (t > 1813.48)
  else false

/-- Momentum-dump proximity test (lines 256-259): a cadence is removed
when it is within 0.015 of any loaded bad epoch. -/
def nearBadTime (momDumps : List ℚ) (t : ℚ) : Bool :=
  momDumps.any (fun i => decide (|t - i| < 0.015))

/-- The boolean removal mask `for_removal` built over the time array
(lines 191-261): the sector-specific range windows together with the
momentum-dump proximity cut. -/
def for_removal (sector : ℕ) (momDumps : List ℚ) (time : List ℚ) : List Bool :=
  time.map (fun t => sectorRangeRemoval sector t || nearBadTime momDumps t)

/-- Numpy boolean indexing `xs[~mask]` (lines 263-265): keep exactly the
entries whose mask bit is `False`. -/
def applyNotMask {α : Type} : List Bool → List α → List α
  | true :: bs, _x :: xs => applyNotMask bs xs
  | false :: bs, x :: xs => x :: applyNotMask bs xs
  | _, _ => []

/-- The `clean_tess_lc` function (lines 142-271): build the removal mask
from the sector windows and the sector's loaded bad times, then apply
its complement to `time`, `flux` and `flux_err` alike.  `none` models
the `NameError` on an out-of-range sector. -/
def clean_tess_lc (badTimes : ℕ → List ℚ) (sector : ℕ)
    (time flux flux_err : List ℚ) : Option (List ℚ × List ℚ × List ℚ) :=
  if 1 ≤ sector ∧ sector ≤ 19 then
    let mask := for_removal sector (badTimes sector) time
    some (applyNotMask mask time, applyNotMask mask flux, applyNotMask mask flux_err)
  else
    none

/-- Filtering by the complement of a mask yields a sublist. -/
theorem applyNotMask_sublist {α : Type} :
    ∀ (bs : List Bool) (xs : List α), (applyNotMask bs xs).Sublist xs := by
  intro bs
  induction bs with
  | nil => intro xs; cases xs <;> simp [applyNotMask]
  | cons b bs ih =>
    intro xs
    cases xs with
    | nil => simp [applyNotMask]
    | cons x xs =>
      cases b with
      | true => exact List.Sublist.cons x (ih xs)
      | false => exact List.Sublist.cons₂ x (ih xs)

/-- Equal-length inputs are filtered to equal lengths by the same mask. -/
theorem applyNotMask_length_eq {α β : Type} :
    ∀ (bs : List Bool) (xs : List α) (ys : List β), xs.length = ys.length →
      (applyNotMask bs xs).length = (applyNotMask bs ys).length := by
  intro bs
  induction bs with
  | nil =>
    intro xs ys _
    cases xs <;> cases ys <;> simp [applyNotMask]
  | cons b bs ih =>
    intro xs ys h
    cases xs with
    | nil => cases ys with
      | nil => cases b <;> rfl
      | cons y ys => simp at h
    | cons x xs =>
      cases ys with
      | nil => simp at h
      | cons y ys =>
        have h' : xs.length = ys.length := by simpa using h
        cases b with
        | true => simpa [applyNotMask] using ih xs ys h'
        | false => simpa [applyNotMask] using ih xs ys h'

/-- Filtering commutes with zipping for equal-length inputs: the same
mask removes matching entries from paired arrays. -/
theorem applyNotMask_zip {α β : Type} :
    ∀ (bs : List Bool) (xs : List α) (ys : List β), xs.length = ys.length →
      applyNotMask bs (xs.zip ys) = (applyNotMask bs xs).zip (applyNotMask bs ys) := by
  intro bs
  induction bs with
  | nil =>
    intro xs ys _
    cases xs <;> cases ys <;> simp [applyNotMask]
  | cons b bs ih =>
    intro xs ys h
    cases xs with
    | nil => cases ys with
      | nil => cases b <;> rfl
      | cons y ys => simp at h
    | cons x xs =>
      cases ys with
      | nil => simp at h
      | cons y ys =>
        have h' : xs.length = ys.length := by simpa using h
        cases b with
        | true => simpa [applyNotMask, List.zip_cons_cons] using ih xs ys h'
        | false => simpa [applyNotMask, List.zip_cons_cons] using ih xs ys h'

/-- C9: for equal-length inputs and a sector in 1..19, `clean_tess_lc`
returns three arrays cut down by one common boolean mask: they share one
length, no longer than the input, and zipping the outputs gives a
sublist of the zipped inputs — the times keep their original order and
each kept flux / flux_err value keeps its pairing with its original
timestamp (entries are only removed, never modified or reordered). -/
theorem clean_tess_lc_mask_invariants (badTimes : ℕ → List ℚ) (sector : ℕ)
    (time flux flux_err : List ℚ)
    (hs : 1 ≤ sector ∧ sector ≤ 19)
    (h1 : flux.length = time.length) (h2 : flux_err.length = time.length) :
    ∃ ct cf ce,
      clean_tess_lc badTimes sector time flux flux_err = some (ct, cf, ce) ∧
      (∃ mask : List Bool, mask.length = time.length ∧
        ct = applyNotMask mask time ∧ cf = applyNotMask mask flux ∧
        ce = applyNotMask mask flux_err) ∧
      ct.length = cf.length ∧ ct.length = ce.length ∧ ct.length ≤ time.length ∧
      (ct.zip (cf.zip ce)).Sublist (time.zip (flux.zip flux_err)) := by
  have hmask : (for_removal sector (badTimes sector) time).length = time.length := by
    simp [for_removal]
  refine ⟨applyNotMask (for_removal sector (badTimes sector) time) time,
    applyNotMask (for_removal sector (badTimes sector) time) flux,
    applyNotMask (for_removal sector (badTimes sector) time) flux_err,
    ?_, ⟨for_removal sector (badTimes sector) time, hmask, rfl, rfl, rfl⟩, ?_, ?_, ?_, ?_⟩
  · simp only [clean_tess_lc, if_pos hs]
  · exact applyNotMask_length_eq _ time flux h1.symm
  · exact applyNotMask_length_eq _ time flux_err h2.symm
  · exact (applyNotMask_sublist _ time).length_le
  · have hzf : flux.length = (flux.zip flux_err).length := by
      rw [List.length_zip]
      omega
    rw [← applyNotMask_zip _ flux flux_err (by omega),
      ← applyNotMask_zip _ time (flux.zip flux_err) (by rw [← hzf, h1])]
    exact applyNotMask_sublist _ _

/-- C9 witness: the theorem applied at a concrete input (sector 1, one
bad epoch that removes the first cadence). -/
theorem clean_tess_lc_mask_invariants_witness :
    ((1 ≤ 1 ∧ 1 ≤ 19) ∧
      ([(10:ℚ), 20] : List ℚ).length = ([(0:ℚ), 1] : List ℚ).length ∧
      ([(5:ℚ), 6] : List ℚ).length = ([(0:ℚ), 1] : List ℚ).length) ∧
    (∃ ct cf ce,
      clean_tess_lc (fun _s => [0]) 1 [0, 1] [10, 20] [5, 6] = some (ct, cf, ce) ∧
      (∃ mask : List Bool, mask.length = ([(0:ℚ), 1] : List ℚ).length ∧
        ct = applyNotMask mask [0, 1] ∧ cf = applyNotMask mask [10, 20] ∧
        ce = applyNotMask mask [5, 6]) ∧
      ct.length = cf.length ∧ ct.length = ce.length ∧
      ct.length ≤ ([(0:ℚ), 1] : List ℚ).length ∧
      (ct.zip (cf.zip ce)).Sublist (([(0:ℚ), 1] : List ℚ).zip
        (([(10:ℚ), 20] : List ℚ).zip [5, 6]))) :=
  ⟨⟨by omega, rfl, rfl⟩,
    clean_tess_lc_mask_invariants (fun _s => [0]) 1 [0, 1] [10, 20] [5, 6]
      ⟨by omega, by omega⟩ rfl rfl⟩

/-!  Embedding of `bin` (ffi_lowess_detrending_as_function_CDIPS.py,
lines 734-765; the same function appears in remove_tess_systematics.py,
lines 35-49; claim C10).

The source computes `n_bins = len(flux) // binsize` and then
`np.array_split(np.arange(len(time)), n_bins)`: `array_split` divides
the `n` indices into exactly `n_bins` contiguous groups, the first
`n % n_bins` of size `n // n_bins + 1` and the rest of size
`n // n_bins` — no index is dropped (despite the docstring's remark
about ignored remainders).  `binsize = 0` raises `ZeroDivisionError`
at the `//`, and `n_bins = 0` makes `array_split` raise `ValueError`
(sections must be positive). -/

/-- Insertion of one element into a sorted list (ascending). -/
def insertSorted (x : ℚ) : List ℚ → List ℚ
  | [] => [x]
  | y :: ys => if x ≤ y then x :: y :: ys else y :: insertSorted x ys

/-- Ascending insertion sort, used to evaluate the median. -/
def sortRat (xs : List ℚ) : List ℚ :=
  xs.foldr insertSorted []

/-- Value of `np.nanmean` on a list of rationals (no NaNs in ℚ). -/
def npMean (xs : List ℚ) : ℚ :=
  xs.sum / (xs.length : ℚ)

/-- Value of `np.nanmedian` on a list of rationals: middle element of
the sorted list, or the average of the two middle ones. -/
def npMedian (xs : List ℚ) : ℚ :=
  let s := sortRat xs
  if xs.length % 2 = 1 then s.getD (xs.length / 2) 0
  else (s.getD (xs.length / 2 - 1) 0 + s.getD (xs.length / 2) 0) / 2

/-- Sizes of the `k` sections of `np.array_split` on an array of length
`n`: `n % k` sections of size `n / k + 1` followed by `k - n % k`
sections of size `n / k`. -/
def arraySplitSizes (n k : ℕ) : List ℕ :=
  List.replicate (n % k) (n / k + 1) ++ List.replicate (k - n % k) (n / k)

/-- Cutting a list into consecutive chunks of the given sizes. -/
def splitBySizes {α : Type} : List ℕ → List α → List (List α)
  | [], _ => []
  | s :: rest, xs => xs.take s :: splitBySizes rest (xs.drop s)

/-- The `np.array_split(xs, k)` sections (`k ≥ 1`). -/
def array_split {α : Type} (xs : List α) (k : ℕ) : List (List α) :=
  splitBySizes (arraySplitSizes xs.length k) xs

/-- Errors raised by `bin`. -/
inductive BinError where
  | valueError : BinError
  | zeroDivisionError : BinError
deriving DecidableEq, Repr

/-- The `bin` function (lines 734-765): reject unknown methods with
`ValueError`, then compute `n_bins = len(flux) // binsize`
(`ZeroDivisionError` when `binsize = 0`; `ValueError` from `array_split`
when `n_bins = 0`), split the index range into `n_bins` groups and
summarise `time` and `flux` over each group. -/
def bin (time flux : List ℚ) (binsize : ℕ) (method : String) :
    Except BinError (List ℚ × List ℚ) :=
  if method ≠ "mean" ∧ method ≠ "median" then
    Except.error BinError.valueError
  else if binsize = 0 then
    Except.error BinError.zeroDivisionError
  else
    let n_bins := flux.length / binsize
    if n_bins = 0 then
      Except.error BinError.valueError
    else
      let methodf := if method = "mean" then npMean else npMedian
      let indexes := array_split (List.range time.length) n_bins
      Except.ok
        (indexes.map (fun a => methodf (a.map (fun j => time.getD j 0))),
         indexes.map (fun a => methodf (a.map (fun j => flux.getD j 0))))

/-- The section sizes of `array_split` total the array length. -/
theorem arraySplitSizes_sum (n k : ℕ) (hk : k ≠ 0) :
    (arraySplitSizes n k).sum = n := by
  have hmod : n % k < k := Nat.mod_lt n (Nat.pos_of_ne_zero hk)
  simp only [arraySplitSizes, List.sum_append, List.sum_replicate, smul_eq_mul]
  have hsplit : (k - n % k) * (n / k) + (n % k) * (n / k) = k * (n / k) := by
    rw [← Nat.add_mul]
    congr 1
    omega
  have hms : (n % k) * (n / k + 1) = (n % k) * (n / k) + n % k := Nat.mul_succ _ _
  have hdm := Nat.div_add_mod n k
  omega

/-- `array_split` produces exactly `k` sections. -/
theorem arraySplitSizes_length (n k : ℕ) (hk : k ≠ 0) :
    (arraySplitSizes n k).length = k := by
  have hmod : n % k < k := Nat.mod_lt n (Nat.pos_of_ne_zero hk)
  simp only [arraySplitSizes, List.length_append, List.length_replicate]
  omega

/-- Concatenating the chunks gives back the original list whenever the
chunk sizes total its length. -/
theorem splitBySizes_flatten {α : Type} :
    ∀ (sizes : List ℕ) (xs : List α), sizes.sum = xs.length →
      (splitBySizes sizes xs).flatten = xs := by
  intro sizes
  induction sizes with
  | nil =>
    intro xs h
    have : xs = [] := by
      cases xs with
      | nil => rfl
      | cons x xs => simp at h
    simp [splitBySizes, this]
  | cons s rest ih =>
    intro xs h
    simp only [splitBySizes, List.flatten_cons]
    have hrest : rest.sum = (xs.drop s).length := by
      simp only [List.sum_cons] at h
      rw [List.length_drop]
      omega
    rw [ih (xs.drop s) hrest, List.take_append_drop]

/-- The number of chunks equals the number of sizes. -/
theorem splitBySizes_length {α : Type} :
    ∀ (sizes : List ℕ) (xs : List α),
      (splitBySizes sizes xs).length = sizes.length := by
  intro sizes
  induction sizes with
  | nil => intro xs; rfl
  | cons s rest ih => intro xs; simp [splitBySizes, ih]

/-- C10 (counterexample to the claim as stated): with `binsize = 0` the
hypothesis `n ≥ binsize` holds for any input, but `bin` raises
`ZeroDivisionError` at `len(flux) // binsize` instead of returning two
arrays. -/
theorem bin_zero_binsize_cex :
    bin [(0:ℚ)] [(1:ℚ)] 0 "mean" = Except.error BinError.zeroDivisionError := rfl

/-- C10 (amended with `binsize ≥ 1`): for equal-length inputs with
`1 ≤ binsize ≤ n` and method `mean` or `median`, `bin` returns two
arrays of length `n // binsize` each, and the index groups used to form
the bins concatenate back to the full index range — every input index
lands in exactly one bin, with no remainder dropped; any other method
yields `ValueError`. -/
theorem bin_spec_amended (time flux : List ℚ) (binsize : ℕ) (method : String)
    (hlen : time.length = flux.length) (hbs : 1 ≤ binsize)
    (hn : binsize ≤ flux.length) :
    (method = "mean" ∨ method = "median" →
      ∃ bt bf, bin time flux binsize method = Except.ok (bt, bf) ∧
        bt.length = flux.length / binsize ∧
        bf.length = flux.length / binsize ∧
        (array_split (List.range time.length) (flux.length / binsize)).flatten =
          List.range time.length) ∧
    (method ≠ "mean" → method ≠ "median" →
      bin time flux binsize method = Except.error BinError.valueError) := by
  have hb0 : binsize ≠ 0 := by omega
  have hnb : flux.length / binsize ≠ 0 := by
    have := Nat.div_pos hn (by omega)
    omega
  constructor
  · intro hmethod
    have hnot : ¬ (method ≠ "mean" ∧ method ≠ "median") := by
      rcases hmethod with h | h <;> simp [h]
    have hjoin : (array_split (List.range time.length) (flux.length / binsize)).flatten =
        List.range time.length := by
      apply splitBySizes_flatten
      rw [List.length_range, arraySplitSizes_sum _ _ hnb]
    refine ⟨(array_split (List.range time.length) (flux.length / binsize)).map
        (fun a => (if method = "mean" then npMean else npMedian)
          (a.map (fun j => time.getD j 0))),
      (array_split (List.range time.length) (flux.length / binsize)).map
        (fun a => (if method = "mean" then npMean else npMedian)
          (a.map (fun j => flux.getD j 0))),
      ?_, ?_, ?_, hjoin⟩
    · simp only [bin, if_neg hnot, if_neg hb0, if_neg hnb]
    · simp only [List.length_map, array_split, splitBySizes_length,
        List.length_range, arraySplitSizes_length _ _ hnb]
    · simp only [List.length_map, array_split, splitBySizes_length,
        List.length_range, arraySplitSizes_length _ _ hnb]
  · intro h1 h2
    simp only [bin, if_pos (And.intro h1 h2)]

/-- C10 witness: the amended theorem applied at a concrete input whose
length 3 is not a multiple of `binsize = 2` (the remainder index still
lands in a bin). -/
theorem bin_spec_amended_witness :
    (([(0:ℚ), 1, 2] : List ℚ).length = ([(10:ℚ), 20, 30] : List ℚ).length ∧
      1 ≤ 2 ∧ 2 ≤ ([(10:ℚ), 20, 30] : List ℚ).length) ∧
    ((("mean" : String) = "mean" ∨ ("mean" : String) = "median" →
      ∃ bt bf, bin [0, 1, 2] [10, 20, 30] 2 "mean" = Except.ok (bt, bf) ∧
        bt.length = ([(10:ℚ), 20, 30] : List ℚ).length / 2 ∧
        bf.length = ([(10:ℚ), 20, 30] : List ℚ).length / 2 ∧
        (array_split (List.range ([(0:ℚ), 1, 2] : List ℚ).length)
          (([(10:ℚ), 20, 30] : List ℚ).length / 2)).flatten =
            List.range ([(0:ℚ), 1, 2] : List ℚ).length) ∧
      (("mean" : String) ≠ "mean" → ("mean" : String) ≠ "median" →
        bin [0, 1, 2] [10, 20, 30] 2 "mean" = Except.error BinError.valueError)) :=
  ⟨⟨rfl, by omega, by decide⟩,
    bin_spec_amended [0, 1, 2] [10, 20, 30] 2 "mean" rfl (by omega) (by decide)⟩
